import Mathlib

/-
Verification of the scopelint convention checker (src/check/mod.rs and
src/check/validators/test_names.rs) against its specification.

Modelling conventions:
- Rust `&str` / `String` values are modelled as `List Char` (`Str`); Rust
  iterates strings as Unicode scalar values, which is what `Char` is.
- Regexes are modelled two ways: an executable matcher translated from the
  regex's structure, and a declarative language predicate written exactly as
  the regex reads; bridge lemmas connect the two.
- The regex character class `\w` is modelled over ASCII word characters
  (letters, digits, underscore); the claims under study only exercise the
  structure of the patterns, not Unicode classes.
- Fallible Rust code (panics via `unwrap` / `expect` / `unreachable!`) is
  modelled with `Option` (`none` = the panic), and `Result`-returning code
  with `Except`.
-/

abbrev Str := List Char

-- ===== Character classes used by the regexes =====

/-- The regex class `[A-Z]`. -/
def isUpperChar (c : Char) : Bool := 'A' ≤ c && c ≤ 'Z'

/-- The ASCII lowercase letters `a`-`z` (used by the spec's "lowercase letter"). -/
def isLowerChar (c : Char) : Bool := 'a' ≤ c && c ≤ 'z'

/-- The regex class `[0-9]`. -/
def isDigitChar (c : Char) : Bool := '0' ≤ c && c ≤ '9'

/-- The regex class `\w` (ASCII word characters). -/
def isWordChar (c : Char) : Bool := isUpperChar c || isLowerChar c || isDigitChar c || c == '_'

/-- The regex class `[$_]` of RE_VALID_CONSTANT_NAME. -/
def isSepChar (c : Char) : Bool := c == '$' || c == '_'

/-- The regex class `[A-Z0-9]` of RE_VALID_CONSTANT_NAME. -/
def isCoreChar (c : Char) : Bool := isUpperChar c || isDigitChar c

-- ===== Literal string matching (str::starts_with / str::ends_with) =====

/-- Strips the literal prefix `p` from `s`, returning the remainder when `p`
is a prefix of `s` and `none` otherwise. -/
def dropPre : Str → Str → Option Str
  | [], s => some s
  | _ :: _, [] => none
  | p :: ps, c :: cs => if p = c then dropPre ps cs else none

/-- Rust's `str::starts_with` for a literal pattern. -/
def startsW (p s : Str) : Bool := (dropPre p s).isSome

/-- Rust's `str::ends_with` for a literal pattern. -/
def endsW (s p : Str) : Bool := p.isSuffixOf s

theorem dropPre_eq_some (p : Str) : ∀ s r : Str, dropPre p s = some r ↔ s = p ++ r := by
  induction p with
  | nil => intro s r; simp [dropPre]
  | cons c cs ih =>
    intro s r
    cases s with
    | nil => simp [dropPre]
    | cons d ds =>
      simp only [dropPre]
      by_cases h : c = d
      · subst h; simp [ih]
      · simp [h]; intro h2; exact absurd h2.symm h

theorem dropPre_self_append (p r : Str) : dropPre p (p ++ r) = some r :=
  (dropPre_eq_some p (p ++ r) r).mpr rfl

theorem startsW_iff (p s : Str) : startsW p s = true ↔ ∃ r, s = p ++ r := by
  unfold startsW
  cases h : dropPre p s with
  | none =>
    simp only [Option.isSome_none]
    constructor
    · intro hc; exact absurd hc (by simp)
    · rintro ⟨r, rfl⟩; rw [dropPre_self_append] at h; exact absurd h (by simp)
  | some r =>
    simp only [Option.isSome_some, true_iff]
    exact ⟨r, (dropPre_eq_some p s r).mp h⟩

-- ===== The test-name regex (src/check/validators/test_names.rs) =====

-- RE_VALID_TEST_NAME is `^test(Fork)?(Fuzz)?(_Revert(If|When|On))?_(\w+)*$`.
-- The matcher below follows the regex left to right; each optional group is
-- tried both skipped and taken (the backtracking semantics of `is_match`).

def testL : Str := ['t', 'e', 's', 't']

def forkL : Str := ['F', 'o', 'r', 'k']

def fuzzL : Str := ['F', 'u', 'z', 'z']

def revertIfL : Str := ['_', 'R', 'e', 'v', 'e', 'r', 't', 'I', 'f']

def revertWhenL : Str := ['_', 'R', 'e', 'v', 'e', 'r', 't', 'W', 'h', 'e', 'n']

def revertOnL : Str := ['_', 'R', 'e', 'v', 'e', 'r', 't', 'O', 'n']

/-- Matches the regex tail `_(\w+)*$`: a literal underscore followed by a
string of word characters (as a language, `(\w+)*` denotes the same set of
strings as `\w*`; `starPlus_flatten` below records that fact). -/
def tailW : Str → Bool
  | [] => false
  | c :: rest => c == '_' && rest.all isWordChar

/-- Tries the optional group `(_Revert(If|When|On))?` and then the tail. -/
def checkOpt (p r : Str) : Bool :=
  match dropPre p r with
  | some r2 => tailW r2
  | none => false

def checkAfterRev (r : Str) : Bool :=
  tailW r || checkOpt revertIfL r || checkOpt revertWhenL r || checkOpt revertOnL r

def checkAfterFuzz (r : Str) : Bool :=
  checkAfterRev r ||
    (match dropPre fuzzL r with
     | some r2 => checkAfterRev r2
     | none => false)

def checkAfterFork (r : Str) : Bool :=
  checkAfterFuzz r ||
    (match dropPre forkL r with
     | some r2 => checkAfterFuzz r2
     | none => false)

/-- Whole-string match of RE_VALID_TEST_NAME. -/
def matchTestRe (s : Str) : Bool :=
  match dropPre testL s with
  | some r => checkAfterFork r
  | none => false

/-- The function `is_valid_test_name` of test_names.rs: names not starting
with "test" are accepted outright; otherwise the name must match
RE_VALID_TEST_NAME. -/
def is_valid_test_name (name : Str) : Bool :=
  if !(startsW testL name) then
    true
  else
    startsW testL name && matchTestRe name

-- ----- Declarative languages for the test-name regex -----

/-- The language of the regex tail `_(\w+)*`: an underscore followed by zero
or more word characters. -/
def wordTail (t : Str) : Prop :=
  ∃ w, (∀ c ∈ w, isWordChar c = true) ∧ t = '_' :: w

/-- The language of `(X+)*` over a character class equals the language of
`X*`: a string splits into nonempty all-class groups iff it is all-class. -/
theorem starPlus_flatten (w : Str) :
    (∀ c ∈ w, isWordChar c = true) ↔
      ∃ gs : List Str,
        (∀ g ∈ gs, g ≠ [] ∧ ∀ c ∈ g, isWordChar c = true) ∧ gs.flatten = w := by
  constructor
  · intro h
    refine ⟨w.map fun c => [c], ?_, ?_⟩
    · intro g hg
      simp only [List.mem_map] at hg
      obtain ⟨c, hc, rfl⟩ := hg
      exact ⟨by simp, by simpa using h c hc⟩
    · induction w with
      | nil => simp
      | cons c cs ih => simp [ih fun d hd => h d (List.mem_cons_of_mem c hd)]
  · rintro ⟨gs, hgs, rfl⟩ c hc
    simp only [List.mem_flatten] at hc
    obtain ⟨g, hg, hcg⟩ := hc
    exact (hgs g hg).2 c hcg

theorem tailW_iff (t : Str) : tailW t = true ↔ wordTail t := by
  cases t with
  | nil => simp [tailW, wordTail]
  | cons c rest =>
    simp only [tailW, Bool.and_eq_true, beq_iff_eq, List.all_eq_true, wordTail]
    constructor
    · rintro ⟨rfl, h⟩; exact ⟨rest, h, rfl⟩
    · rintro ⟨w, hw, heq⟩
      injection heq with h1 h2
      exact ⟨h1, h2 ▸ hw⟩

/-- One alternative of the optional group `(_Revert(If|When|On))?`. -/
def revOpt (c : Str) : Prop :=
  c = [] ∨ c = revertIfL ∨ c = revertWhenL ∨ c = revertOnL

theorem checkOpt_iff (p r : Str) :
    checkOpt p r = true ↔ ∃ t, wordTail t ∧ r = p ++ t := by
  unfold checkOpt
  cases h : dropPre p r with
  | none =>
    simp only [Bool.false_eq_true, false_iff]
    rintro ⟨t, _, rfl⟩
    rw [dropPre_self_append] at h; exact absurd h (by simp)
  | some r2 =>
    rw [tailW_iff]
    have hr : r = p ++ r2 := (dropPre_eq_some p r r2).mp h
    constructor
    · intro ht; exact ⟨r2, ht, hr⟩
    · rintro ⟨t, ht, heq⟩
      have : r2 = t := by
        rw [hr] at heq; exact List.append_cancel_left heq
      exact this ▸ ht

theorem checkAfterRev_iff (r : Str) :
    checkAfterRev r = true ↔ ∃ c t, revOpt c ∧ wordTail t ∧ r = c ++ t := by
  unfold checkAfterRev
  simp only [Bool.or_eq_true, checkOpt_iff, tailW_iff]
  constructor
  · rintro (((h | ⟨t, ht, rfl⟩) | ⟨t, ht, rfl⟩) | ⟨t, ht, rfl⟩)
    · exact ⟨[], r, Or.inl rfl, h, rfl⟩
    · exact ⟨revertIfL, t, Or.inr (Or.inl rfl), ht, rfl⟩
    · exact ⟨revertWhenL, t, Or.inr (Or.inr (Or.inl rfl)), ht, rfl⟩
    · exact ⟨revertOnL, t, Or.inr (Or.inr (Or.inr rfl)), ht, rfl⟩
  · rintro ⟨c, t, (rfl | rfl | rfl | rfl), ht, rfl⟩
    · exact Or.inl (Or.inl (Or.inl (by simpa using ht)))
    · exact Or.inl (Or.inl (Or.inr ⟨t, ht, rfl⟩))
    · exact Or.inl (Or.inr ⟨t, ht, rfl⟩)
    · exact Or.inr ⟨t, ht, rfl⟩

theorem checkAfterFuzz_iff (r : Str) :
    checkAfterFuzz r = true ↔
      ∃ b c t, (b = [] ∨ b = fuzzL) ∧ revOpt c ∧ wordTail t ∧ r = b ++ (c ++ t) := by
  unfold checkAfterFuzz
  simp only [Bool.or_eq_true]
  constructor
  · rintro (h | h)
    · obtain ⟨c, t, hc, ht, rfl⟩ := (checkAfterRev_iff r).mp h
      exact ⟨[], c, t, Or.inl rfl, hc, ht, rfl⟩
    · cases hd : dropPre fuzzL r with
      | none => rw [hd] at h; exact absurd h (by simp)
      | some r2 =>
        rw [hd] at h
        obtain ⟨c, t, hc, ht, rfl⟩ := (checkAfterRev_iff r2).mp h
        exact ⟨fuzzL, c, t, Or.inr rfl, hc, ht, (dropPre_eq_some _ _ _).mp hd⟩
  · rintro ⟨b, c, t, (rfl | rfl), hc, ht, rfl⟩
    · exact Or.inl ((checkAfterRev_iff _).mpr ⟨c, t, hc, ht, rfl⟩)
    · refine Or.inr ?_
      rw [dropPre_self_append]
      exact (checkAfterRev_iff _).mpr ⟨c, t, hc, ht, rfl⟩

theorem checkAfterFork_iff (r : Str) :
    checkAfterFork r = true ↔
      ∃ a b c t, (a = [] ∨ a = forkL) ∧ (b = [] ∨ b = fuzzL) ∧ revOpt c ∧ wordTail t ∧
        r = a ++ (b ++ (c ++ t)) := by
  unfold checkAfterFork
  simp only [Bool.or_eq_true]
  constructor
  · rintro (h | h)
    · obtain ⟨b, c, t, hb, hc, ht, rfl⟩ := (checkAfterFuzz_iff r).mp h
      exact ⟨[], b, c, t, Or.inl rfl, hb, hc, ht, rfl⟩
    · cases hd : dropPre forkL r with
      | none => rw [hd] at h; exact absurd h (by simp)
      | some r2 =>
        rw [hd] at h
        obtain ⟨b, c, t, hb, hc, ht, rfl⟩ := (checkAfterFuzz_iff r2).mp h
        exact ⟨forkL, b, c, t, Or.inr rfl, hb, hc, ht, (dropPre_eq_some _ _ _).mp hd⟩
  · rintro ⟨a, b, c, t, (rfl | rfl), hb, hc, ht, rfl⟩
    · exact Or.inl ((checkAfterFuzz_iff _).mpr ⟨b, c, t, hb, hc, ht, rfl⟩)
    · refine Or.inr ?_
      rw [dropPre_self_append]
      exact (checkAfterFuzz_iff _).mpr ⟨b, c, t, hb, hc, ht, rfl⟩

/-- The full language of RE_VALID_TEST_NAME: `test`, optional `Fork`,
optional `Fuzz`, optional `_Revert(If|When|On)`, then an underscore and zero
or more word characters. -/
def testReLang (s : Str) : Prop :=
  ∃ a b c t, (a = [] ∨ a = forkL) ∧ (b = [] ∨ b = fuzzL) ∧ revOpt c ∧ wordTail t ∧
    s = testL ++ (a ++ (b ++ (c ++ t)))

theorem matchTestRe_iff (s : Str) : matchTestRe s = true ↔ testReLang s := by
  unfold matchTestRe testReLang
  cases h : dropPre testL s with
  | none =>
    simp only [Bool.false_eq_true, false_iff]
    rintro ⟨a, b, c, t, _, _, _, _, rfl⟩
    rw [dropPre_self_append] at h; exact absurd h (by simp)
  | some r =>
    have hr : s = testL ++ r := (dropPre_eq_some _ _ _).mp h
    rw [checkAfterFork_iff]
    constructor
    · rintro ⟨a, b, c, t, ha, hb, hc, ht, rfl⟩
      exact ⟨a, b, c, t, ha, hb, hc, ht, hr⟩
    · rintro ⟨a, b, c, t, ha, hb, hc, ht, heq⟩
      refine ⟨a, b, c, t, ha, hb, hc, ht, ?_⟩
      rw [hr] at heq; exact List.append_cancel_left heq

-- ===== The constant-name regex (src/check/mod.rs) =====

-- RE_VALID_CONSTANT_NAME is `^(?:[$_]*[A-Z0-9][$_]*){1,}$`.

/-- DFA-style matcher for RE_VALID_CONSTANT_NAME; `seen` records whether a
`[A-Z0-9]` character (the mandatory core of some group) has occurred yet. -/
def matchConst : Str → Bool → Bool
  | [], seen => seen
  | c :: rest, seen =>
    if isSepChar c then matchConst rest seen
    else if isCoreChar c then matchConst rest true
    else false

/-- The function `is_valid_constant_name` of mod.rs: whole-string match of
RE_VALID_CONSTANT_NAME. -/
def is_valid_constant_name (name : Str) : Bool := matchConst name false

/-- One group `[$_]*[A-Z0-9][$_]*` of RE_VALID_CONSTANT_NAME. -/
def constGroup (g : Str) : Prop :=
  ∃ l m r, (∀ c ∈ l, isSepChar c = true) ∧ isCoreChar m = true ∧
    (∀ c ∈ r, isSepChar c = true) ∧ g = l ++ m :: r

/-- The language of RE_VALID_CONSTANT_NAME: one or more groups. -/
def constReLang (s : Str) : Prop :=
  ∃ gs : List Str, gs ≠ [] ∧ (∀ g ∈ gs, constGroup g) ∧ gs.flatten = s

theorem sep_not_core {c : Char} (h : isSepChar c = true) : isCoreChar c = false := by
  simp only [isSepChar, Bool.or_eq_true, beq_iff_eq] at h
  rcases h with rfl | rfl <;> decide

theorem matchConst_iff (s : Str) : ∀ seen : Bool,
    matchConst s seen = true ↔
      (∀ c ∈ s, (isSepChar c || isCoreChar c) = true) ∧
        (seen = true ∨ ∃ c ∈ s, isCoreChar c = true) := by
  induction s with
  | nil => intro seen; simp [matchConst]
  | cons c rest ih =>
    intro seen
    simp only [matchConst]
    by_cases hsep : isSepChar c = true
    · rw [if_pos hsep, ih]
      constructor
      · rintro ⟨hall, hseen⟩
        refine ⟨?_, ?_⟩
        · intro d hd
          rcases List.mem_cons.mp hd with rfl | hd
          · simp [hsep]
          · exact hall d hd
        · rcases hseen with h | ⟨d, hd, hcd⟩
          · exact Or.inl h
          · exact Or.inr ⟨d, List.mem_cons_of_mem c hd, hcd⟩
      · rintro ⟨hall, hseen⟩
        refine ⟨fun d hd => hall d (List.mem_cons_of_mem c hd), ?_⟩
        rcases hseen with h | ⟨d, hd, hcd⟩
        · exact Or.inl h
        · rcases List.mem_cons.mp hd with rfl | hd
          · rw [sep_not_core hsep] at hcd; exact absurd hcd (by simp)
          · exact Or.inr ⟨d, hd, hcd⟩
    · rw [if_neg hsep]
      by_cases hcore : isCoreChar c = true
      · rw [if_pos hcore, ih]
        simp only [true_or, and_true]
        constructor
        · intro hall
          refine ⟨?_, Or.inr ⟨c, List.mem_cons_self c rest, hcore⟩⟩
          intro d hd
          rcases List.mem_cons.mp hd with rfl | hd
          · simp [hcore]
          · exact hall d hd
        · rintro ⟨hall, _⟩
          exact fun d hd => hall d (List.mem_cons_of_mem c hd)
      · rw [if_neg hcore]
        simp only [Bool.false_eq_true, false_iff, not_and_or]
        refine Or.inl ?_
        intro hall
        have := hall c (List.mem_cons_self c rest)
        simp only [Bool.or_eq_true] at this
        rcases this with h | h
        · exact hsep h
        · exact hcore h

theorem constReLang_iff (s : Str) :
    constReLang s ↔
      (∀ c ∈ s, (isSepChar c || isCoreChar c) = true) ∧ ∃ c ∈ s, isCoreChar c = true := by
  constructor
  · rintro ⟨gs, hne, hgs, rfl⟩
    constructor
    · intro c hc
      obtain ⟨g, hg, hcg⟩ := List.mem_flatten.mp hc
      obtain ⟨l, m, r, hl, hm, hr, rfl⟩ := hgs g hg
      rcases List.mem_append.mp hcg with h | h
      · simp [hl c h]
      · rcases List.mem_cons.mp h with rfl | h
        · simp [hm]
        · simp [hr c h]
    · obtain ⟨g, hg⟩ := List.exists_mem_of_ne_nil gs hne
      obtain ⟨l, m, r, _, hm, _, rfl⟩ := hgs g hg
      refine ⟨m, List.mem_flatten.mpr ⟨l ++ m :: r, hg, ?_⟩, hm⟩
      simp
  · rintro ⟨hall, hcore⟩
    induction s with
    | nil => obtain ⟨c, hc, _⟩ := hcore; exact absurd hc (List.not_mem_nil c)
    | cons c rest ih =>
      by_cases hc : isCoreChar c = true
      · by_cases hrest : ∃ d ∈ rest, isCoreChar d = true
        · obtain ⟨gs, hne, hgs, hflat⟩ :=
            ih (fun d hd => hall d (List.mem_cons_of_mem c hd)) hrest
          refine ⟨[c] :: gs, by simp, ?_, by simp [hflat]⟩
          intro g hg
          rcases List.mem_cons.mp hg with rfl | hg
          · exact ⟨[], c, [], by simp, hc, by simp, rfl⟩
          · exact hgs g hg
        · refine ⟨[c :: rest], by simp, ?_, by simp⟩
          intro g hg
          rcases List.mem_cons.mp hg with rfl | hg
          · refine ⟨[], c, rest, by simp, hc, ?_, rfl⟩
            intro d hd
            have hd1 := hall d (List.mem_cons_of_mem c hd)
            simp only [Bool.or_eq_true] at hd1
            rcases hd1 with h | h
            · exact h
            · exact absurd ⟨d, hd, h⟩ hrest
          · exact absurd hg (List.not_mem_nil g)
      · have hsep : isSepChar c = true := by
          have := hall c (List.mem_cons_self c rest)
          simp only [Bool.or_eq_true] at this
          rcases this with h | h
          · exact h
          · exact absurd h hc
        have hrest : ∃ d ∈ rest, isCoreChar d = true := by
          obtain ⟨d, hd, hcd⟩ := hcore
          rcases List.mem_cons.mp hd with rfl | hd
          · exact absurd hcd hc
          · exact ⟨d, hd, hcd⟩
        obtain ⟨gs, hne, hgs, hflat⟩ :=
          ih (fun d hd => hall d (List.mem_cons_of_mem c hd)) hrest
        cases gs with
        | nil => exact absurd rfl hne
        | cons g gs2 =>
          obtain ⟨l, m, r, hl, hm, hr, rfl⟩ := hgs _ (List.mem_cons_self g gs2)
          refine ⟨(c :: (l ++ m :: r)) :: gs2, by simp, ?_, ?_⟩
          · intro g2 hg2
            rcases List.mem_cons.mp hg2 with rfl | hg2
            · refine ⟨c :: l, m, r, ?_, hm, hr, by simp⟩
              intro d hd
              rcases List.mem_cons.mp hd with rfl | hd
              · exact hsep
              · exact hl d hd
            · exact hgs g2 (List.mem_cons_of_mem _ hg2)
          · simp only [List.flatten_cons] at hflat ⊢
            simp [← hflat]

/-- Bridge between the executable matcher and RE_VALID_CONSTANT_NAME's
language as written. -/
theorem is_valid_constant_name_iff (s : Str) :
    is_valid_constant_name s = true ↔ constReLang s := by
  rw [is_valid_constant_name, matchConst_iff, constReLang_iff]
  simp

theorem lower_not_allowed {c : Char} (h : isLowerChar c = true) :
    (isSepChar c || isCoreChar c) = false := by
  simp only [isLowerChar, Bool.and_eq_true, decide_eq_true_eq] at h
  obtain ⟨h1, h2⟩ := h
  simp only [isSepChar, isCoreChar, isUpperChar, isDigitChar, Bool.or_eq_false_iff,
    Bool.and_eq_false_iff, beq_eq_false_iff_ne, ne_eq]
  refine ⟨⟨?_, ?_⟩, ?_, ?_⟩
  · rintro rfl; exact absurd h1 (by decide)
  · rintro rfl; exact absurd h1 (by decide)
  · refine Or.inr ?_
    simp only [decide_eq_false_iff_not, not_le]
    calc ('Z' : Char) < 'a' := by decide
      _ ≤ c := h1
  · refine Or.inr ?_
    simp only [decide_eq_false_iff_not, not_le]
    calc ('9' : Char) < 'a' := by decide
      _ ≤ c := h1

-- ===== offset_to_line (src/check/mod.rs) =====

/-- Loop body of `offset_to_line`: walks `(offset, c)` pairs from
`content.chars().enumerate()`, bumping the line counter on each newline
before testing `offset > start`; falling off the end models the
`unreachable!()` panic (`none`). -/
def offset_to_line_go : Str → Nat → Nat → Nat → Option Nat
  | [], _, _, _ => none
  | c :: rest, offset, start, line_counter =>
    let lc := if c = '\n' then line_counter + 1 else line_counter
    if offset > start then some lc else offset_to_line_go rest (offset + 1) start lc

/-- The function `offset_to_line` of mod.rs (first line is 1). -/
def offset_to_line (content : Str) (start : Nat) : Option Nat :=
  offset_to_line_go content 0 start 1

/-- The number of newline characters strictly before offset `o` (the spec's
line-resolution formula is `1 +` this count). -/
def newlinesBefore (content : Str) (o : Nat) : Nat :=
  ((content.take o).filter fun c => c == '\n').length

-- ===== Claim theorems: C1, C2, C3 =====

/-- The test-name language exactly as claim C1 states it: the suffix after
the optional groups is an underscore followed by at least one word
character. -/
def testReLangClaimed (s : Str) : Prop :=
  ∃ a b c w, (a = [] ∨ a = forkL) ∧ (b = [] ∨ b = fuzzL) ∧ revOpt c ∧ w ≠ [] ∧
    (∀ ch ∈ w, isWordChar ch = true) ∧ s = testL ++ (a ++ (b ++ (c ++ '_' :: w)))

/-- Claim C1 (amended): `is_valid_test_name` accepts every name not starting
with "test", and for a name starting with "test" it accepts iff the name is
in the language of `test(Fork)?(Fuzz)?(_Revert(If|When|On))?_(\w+)*`, where
the underscore may be followed by zero or more word characters (so "test_"
is valid). -/
theorem claim_C1 : ∀ n : Str,
    (startsW testL n = false → is_valid_test_name n = true) ∧
      (startsW testL n = true → (is_valid_test_name n = true ↔ testReLang n)) := by
  intro n
  constructor
  · intro h; simp [is_valid_test_name, h]
  · intro h; simp [is_valid_test_name, h, matchTestRe_iff]

/-- Witness for claim C1 at the name "test_Description". -/
theorem claim_C1_witness :
    startsW testL ['t','e','s','t','_','D','e','s','c'] = true ∧
      (is_valid_test_name ['t','e','s','t','_','D','e','s','c'] = true ↔
        testReLang ['t','e','s','t','_','D','e','s','c']) :=
  ⟨by decide, (claim_C1 ['t','e','s','t','_','D','e','s','c']).2 (by decide)⟩

/-- Counterexample to claim C1 as stated: the code accepts "test_" (the
regex tail `_(\w+)*` matches an underscore followed by nothing), while the
claimed pattern `..._\w+` requires a word character after the underscore. -/
theorem claim_C1_counterexample :
    is_valid_test_name ['t','e','s','t','_'] = true ∧
      ¬ testReLangClaimed ['t','e','s','t','_'] := by
  constructor
  · decide
  · rintro ⟨a, b, c, w, _, _, _, hne, _, heq⟩
    have hlen := congrArg List.length heq
    simp only [testL, List.length_append, List.length_cons, List.length_nil] at hlen
    have hw : w.length = 0 := by omega
    exact hne (List.length_eq_zero.mp hw)

/-- Claim C2 (code bug): with `content = "ab"` and `start = 1` (strictly
inside the text, `content.len() > start`) the loop falls through to the
`unreachable!()` branch; and with `content = "a\nb"` and `start = 0` the
function returns line 2 although no newline precedes offset 0 (the claimed
value is 1): the counter is bumped for the newline at offset `start + 1`
before the `offset > start` test fires. -/
theorem claim_C2_bug :
    (List.length ['a','b'] > 1 ∧ offset_to_line ['a','b'] 1 = none) ∧
      (offset_to_line ['a','\n','b'] 0 = some 2 ∧
        1 + newlinesBefore ['a','\n','b'] 0 = 1) := by decide

/-- Claim C3: `is_valid_constant_name` accepts every string built only from
uppercase letters, digits and the separators `_`/`$` that contains at least
one uppercase letter or digit, and rejects every string containing a
lowercase letter. -/
theorem claim_C3 : ∀ s : Str,
    ((∀ c ∈ s, (isSepChar c || isCoreChar c) = true) ∧ (∃ c ∈ s, isCoreChar c = true) →
        is_valid_constant_name s = true) ∧
      ((∃ c ∈ s, isLowerChar c = true) → is_valid_constant_name s = false) := by
  intro s
  constructor
  · intro h
    rw [is_valid_constant_name, matchConst_iff]
    exact ⟨h.1, Or.inr h.2⟩
  · rintro ⟨c, hc, hlow⟩
    cases h : is_valid_constant_name s with
    | false => rfl
    | true =>
      rw [is_valid_constant_name, matchConst_iff] at h
      have := h.1 c hc
      rw [lower_not_allowed hlow] at this
      exact absurd this (by simp)

/-- Witness for claim C3 at "MAX_UINT256" (valid) and "VARIABLe"
(lowercase, invalid). -/
theorem claim_C3_witness :
    is_valid_constant_name ['M','A','X','_','U','I','N','T','2','5','6'] = true ∧
      is_valid_constant_name ['V','A','R','I','A','B','L','e'] = false :=
  ⟨(claim_C3 _).1 (by decide), (claim_C3 _).2 ⟨'e', by decide, by decide⟩⟩

-- ===== Parse-tree data model (solang_parser::pt, as consumed by mod.rs) =====

inductive Visibility where
  | Public
  | External
  | Internal
  | Private
deriving DecidableEq

/-- Function attributes; mod.rs only inspects the `Visibility` variant
(`_ => false` for all others, collapsed into `Other`). -/
inductive FunctionAttribute where
  | Visibility (v : Visibility)
  | Other
deriving DecidableEq

inductive FunctionTy where
  | Constructor
  | Fallback
  | Receive
  | Function
  | Modifier
deriving DecidableEq

/-- A function-like declaration: its type, optional identifier, attribute
list and the byte offset of `loc.start()`. -/
structure FunctionDefinition where
  ty : FunctionTy
  name : Option Str
  attributes : List FunctionAttribute
  loc_start : Nat
deriving DecidableEq

/-- Variable attributes; mod.rs matches `Constant(_) | Immutable(_)`, the
spec-modelled internal-naming rule inspects `Visibility`, everything else is
collapsed into `Other`. -/
inductive VariableAttribute where
  | Constant
  | Immutable
  | Visibility (v : Visibility)
  | Other
deriving DecidableEq

structure VariableDefinition where
  name : Str
  attrs : List VariableAttribute
  loc_start : Nat
deriving DecidableEq

/-- An immediate member of a contract; variants other than variable and
function definitions are collapsed into `Other` (matched by `_ => ()`). -/
inductive ContractPart where
  | VariableDefinition (v : VariableDefinition)
  | FunctionDefinition (f : FunctionDefinition)
  | Other
deriving DecidableEq

/-- A top-level item of a parsed file; variants not named here are collapsed
into `Other` (matched by `_ => ()` in mod.rs). -/
inductive SourceUnitPart where
  | VariableDefinition (v : VariableDefinition)
  | ContractDefinition (parts : List ContractPart)
  | FunctionDefinition (f : FunctionDefinition)
  | Other
deriving DecidableEq

abbrev SourceUnit := List SourceUnitPart

/-- Rule kinds of report::Validator. Modelled from the spec: report.rs is
not under src/; the spec names constant, test-name, internal-naming and
script-shape rule groups. -/
inductive Validator where
  | Constant
  | Script
  | Test
  | Internal
deriving DecidableEq

/-- A violation record. Modelled from the spec: report.rs is not under
src/; the spec's Violation is {rule-kind, file path, symbol-or-message,
line number (1-based, 0 if not applicable to a single line)}. -/
structure InvalidItem where
  validator : Validator
  file : Str
  text : Str
  line : Nat
deriving DecidableEq

/-- The aggregate report. Modelled from the spec: an ordered collection of
violations supporting append, clean iff no violations at all. -/
abbrev Report := List InvalidItem

/-- Report emptiness check `is_valid`. Modelled from the spec: true iff the
total violation count is zero. -/
def Report.is_valid (r : Report) : Bool := r.isEmpty

-- ===== Name resolution (impl Name for FunctionDefinition, mod.rs) =====

def constructorL : Str := "constructor".data

def fallbackL : Str := "fallback".data

def receiveL : Str := "receive".data

def setUpL : Str := "setUp".data

def runL : Str := "run".data

/-- The `name()` method of mod.rs: constructor, fallback and receive get
fixed synthetic names; functions and modifiers clone their declared
identifier through `self.name.as_ref().unwrap()` — `none` models the
`unwrap` panic on a nameless function or modifier node. -/
def fname (f : FunctionDefinition) : Option Str :=
  match f.ty with
  | .Constructor => some constructorL
  | .Fallback => some fallbackL
  | .Receive => some receiveL
  | .Function => f.name
  | .Modifier => f.name

/-- The `is_private` test of mod.rs: some attribute is a Private or Internal
visibility attribute. -/
def is_private_fn (f : FunctionDefinition) : Bool :=
  f.attributes.any fun a =>
    match a with
    | .Visibility v =>
      match v with
      | .Private => true
      | .Internal => true
      | _ => false
    | _ => false

-- ===== impl Validate for VariableDefinition (mod.rs) =====

/-- The `is_constant` test: some attribute is Constant or Immutable. -/
def vdIsConstant (v : VariableDefinition) : Bool :=
  v.attrs.any fun a =>
    match a with
    | .Constant => true
    | .Immutable => true
    | _ => false

/-- The `validate` method on VariableDefinition: a Constant violation when
the declaration is constant-or-immutable and its name fails
`is_valid_constant_name`; `none` models the `offset_to_line` panic. -/
def VariableDefinition.validate (v : VariableDefinition) (content file : Str) :
    Option (List InvalidItem) :=
  if vdIsConstant v && !(is_valid_constant_name v.name) then
    match offset_to_line content v.loc_start with
    | some ln => some [⟨.Constant, file, v.name, ln⟩]
    | none => none
  else
    some []

-- ===== The script-shape check (mod.rs lines 171-201) =====

def noRunMsg : Str := "No `run` method found".data

def onlyRunMsg : Str := "The only public method must be named `run`".data

/-- Rust's `Debug` rendering of a `Vec<String>`, as produced by the
`{public_methods:?}` interpolation. -/
def rustDebugStrs : List Str → Str
  | [] => []
  | [x] => '"' :: (x ++ ['"'])
  | x :: y :: rest => '"' :: (x ++ ['"', ',', ' ']) ++ rustDebugStrs (y :: rest)

def rustDebugList (xs : List Str) : Str := '[' :: rustDebugStrs xs ++ [']']

def scriptsFoundMsgHead : Str :=
  "Scripts must have a single public method named `run` (excluding `setUp`), but the following methods were found: ".data

def scriptsFoundMsg (pms : List Str) : Str := scriptsFoundMsgHead ++ rustDebugList pms

/-- The match on `public_methods.len()` of mod.rs: zero methods, one method
not named "run", or more than one method each yield one Script violation at
line 0; a single "run" yields nothing. -/
def scriptShapeCheck (file : Str) (public_methods : List Str) : List InvalidItem :=
  match public_methods with
  | [] => [⟨.Script, file, noRunMsg, 0⟩]
  | [m] => if m ≠ runL then [⟨.Script, file, onlyRunMsg, 0⟩] else []
  | m1 :: m2 :: rest => [⟨.Script, file, scriptsFoundMsg (m1 :: m2 :: rest), 0⟩]

-- ===== The per-file declaration walk (mod.rs lines 130-167) =====

/-- Walks the immediate members of a contract: variable definitions are
validated, function definitions contribute their name to `public_methods`
when the file is a script and the function is neither private/internal nor
named "setUp"/"constructor". Returns the violations and collected method
names in traversal order; `none` models a panic inside the loop. -/
def walkContract (content file : Str) (is_script : Bool) :
    List ContractPart → Option (List InvalidItem × List Str)
  | [] => some ([], [])
  | .VariableDefinition v :: rest =>
    match v.validate content file with
    | none => none
    | some items =>
      match walkContract content file is_script rest with
      | none => none
      | some (i2, p2) => some (items ++ i2, p2)
  | .FunctionDefinition f :: rest =>
    match fname f with
    | none => none
    | some n =>
      match walkContract content file is_script rest with
      | none => none
      | some (i2, p2) =>
        if is_script && !(is_private_fn f) && (n != setUpL) && (n != constructorL) then
          some (i2, n :: p2)
        else
          some (i2, p2)
  | .Other :: rest => walkContract content file is_script rest

/-- Walks the top-level items of a file (the `for element in pt.0` loop):
top-level variables are validated, contracts are descended one level; all
other top-level items — including top-level function definitions — fall
into the `_ => ()` arm. -/
def walkParts (content file : Str) (is_script : Bool) :
    List SourceUnitPart → Option (List InvalidItem × List Str)
  | [] => some ([], [])
  | .VariableDefinition v :: rest =>
    match v.validate content file with
    | none => none
    | some items =>
      match walkParts content file is_script rest with
      | none => none
      | some (i2, p2) => some (items ++ i2, p2)
  | .ContractDefinition parts :: rest =>
    match walkContract content file is_script parts with
    | none => none
    | some (i1, p1) =>
      match walkParts content file is_script rest with
      | none => none
      | some (i2, p2) => some (i1 ++ i2, p1 ++ p2)
  | .FunctionDefinition _ :: rest => walkParts content file is_script rest
  | .Other :: rest => walkParts content file is_script rest

-- ===== File classification =====

def srcRootL : Str := "./src".data

def scriptRootL : Str := "./script".data

def testRootL : Str := "./test".data

def sSolL : Str := ".s.sol".data

def solExtL : Str := "sol".data

/-- The `is_script` test of mod.rs: the current walk root is "./script" and
the entry's path ends with ".s.sol". -/
def is_script_path (root path : Str) : Bool :=
  root == scriptRootL && endsW path sSolL

/-- File-kind test used by checks::test_names. Modelled from the spec:
utils::FileKind / is_file_kind are not under src/; the spec classifies the
files under the "./test" root as test contracts. -/
def is_file_kind_test (file : Str) : Bool := testRootL.isPrefixOf file

/-- File-kind test used by checks::src_names_internal. Modelled from the
spec: the internal-naming rule applies only to non-test source files, i.e.
the files under the "./src" root. -/
def is_file_kind_src (file : Str) : Bool := srcRootL.isPrefixOf file

-- ===== checks::test_names (src/check/validators/test_names.rs) =====

/-- The `validate_name` helper of test_names.rs: an invalid name yields a
Test violation at the resolved line; `none` models a panic (name `unwrap`
or `offset_to_line`). -/
def validate_name (file content : Str) (f : FunctionDefinition) :
    Option (Option InvalidItem) := do
  let n ← fname f
  if !(is_valid_test_name n) then do
    let ln ← offset_to_line content f.loc_start
    pure (some ⟨.Test, file, n, ln⟩)
  else
    pure none

/-- Contract-member half of the test-names walk. -/
def tnMembers (file content : Str) : List ContractPart → Option (List InvalidItem)
  | [] => some []
  | .FunctionDefinition f :: rest => do
    let r ← validate_name file content f
    let tail ← tnMembers file content rest
    pure (r.toList ++ tail)
  | _ :: rest => tnMembers file content rest

/-- Top-level half of the test-names walk: unlike mod.rs's entrypoint walk,
test_names.rs also visits top-level function definitions. -/
def tnParts (file content : Str) : List SourceUnitPart → Option (List InvalidItem)
  | [] => some []
  | .FunctionDefinition f :: rest => do
    let r ← validate_name file content f
    let tail ← tnParts file content rest
    pure (r.toList ++ tail)
  | .ContractDefinition parts :: rest => do
    let r ← tnMembers file content parts
    let tail ← tnParts file content rest
    pure (r ++ tail)
  | _ :: rest => tnParts file content rest

/-- The `validate` entry point of test_names.rs: non-test files are exempt. -/
def test_names_validate (file content : Str) (pt : SourceUnit) : Option (List InvalidItem) :=
  if !(is_file_kind_test file) then some [] else tnParts file content pt

-- ===== checks::src_names_internal (spec-modelled) =====

-- The module checks::src_names_internal is referenced by mod.rs but its
-- source is not under src/. All definitions in this section are modelled
-- from the spec, section 4.5: the rule applies only to non-test source
-- files and requires every function-like or state-variable declaration
-- whose visibility is private or internal to have a name starting with an
-- underscore.

def startsUnderscore (n : Str) : Bool :=
  match n with
  | '_' :: _ => true
  | _ => false

/-- Modelled from the spec: a variable declaration carrying a Private or
Internal visibility attribute. -/
def vdIsPrivate (v : VariableDefinition) : Bool :=
  v.attrs.any fun a =>
    match a with
    | .Visibility vis =>
      match vis with
      | .Private => true
      | .Internal => true
      | _ => false
    | _ => false

/-- Modelled from the spec: internal-naming check of one function-like
declaration. -/
def sniCheckFn (file content : Str) (f : FunctionDefinition) : Option (List InvalidItem) :=
  if !(is_private_fn f) then some [] else do
    let n ← fname f
    if startsUnderscore n then pure [] else do
      let ln ← offset_to_line content f.loc_start
      pure [⟨.Internal, file, n, ln⟩]

/-- Modelled from the spec: internal-naming check of one state-variable
declaration. -/
def sniCheckVar (file content : Str) (v : VariableDefinition) : Option (List InvalidItem) :=
  if !(vdIsPrivate v) then some [] else
    if startsUnderscore v.name then some [] else
      match offset_to_line content v.loc_start with
      | some ln => some [⟨.Internal, file, v.name, ln⟩]
      | none => none

/-- Modelled from the spec: contract-member half of the internal-naming walk. -/
def sniMembers (file content : Str) : List ContractPart → Option (List InvalidItem)
  | [] => some []
  | .FunctionDefinition f :: rest => do
    let r ← sniCheckFn file content f
    let tail ← sniMembers file content rest
    pure (r ++ tail)
  | .VariableDefinition v :: rest => do
    let r ← sniCheckVar file content v
    let tail ← sniMembers file content rest
    pure (r ++ tail)
  | _ :: rest => sniMembers file content rest

/-- Modelled from the spec: top-level half of the internal-naming walk. -/
def sniParts (file content : Str) : List SourceUnitPart → Option (List InvalidItem)
  | [] => some []
  | .FunctionDefinition f :: rest => do
    let r ← sniCheckFn file content f
    let tail ← sniParts file content rest
    pure (r ++ tail)
  | .VariableDefinition v :: rest => do
    let r ← sniCheckVar file content v
    let tail ← sniParts file content rest
    pure (r ++ tail)
  | .ContractDefinition parts :: rest => do
    let r ← sniMembers file content parts
    let tail ← sniParts file content rest
    pure (r ++ tail)
  | _ :: rest => sniParts file content rest

/-- Modelled from the spec: the `validate` entry point of
checks::src_names_internal, exempting non-source files. -/
def src_names_internal_validate (file content : Str) (pt : SourceUnit) :
    Option (List InvalidItem) :=
  if !(is_file_kind_src file) then some [] else sniParts file content pt

-- ===== The directory walk (fn validate, mod.rs lines 97-205) =====

/-- All per-file checks of the walk body in report order: test-name items,
internal-naming items, the declaration-walk items, then the script-shape
items when the file is an executable script. `none` models a panic. -/
def fileChecks (path content : Str) (is_script : Bool) (pt : SourceUnit) :
    Option (List InvalidItem) := do
  let t ← test_names_validate path content pt
  let s ← src_names_internal_validate path content pt
  let (items, pms) ← walkParts content path is_script pt
  pure (t ++ s ++ items ++ (if is_script then scriptShapeCheck path pms else []))

/-- One item yielded by the WalkDir iterator: either a directory-traversal
error, or a directory entry carrying its path, file-type flag, extension,
the outcome of reading it, and the outcome of parsing its content. -/
inductive WalkItem where
  | access (err : Str)
  | entry (path : Str) (isFile : Bool) (ext : Option Str) (read : Except Str Str)
      (parsed : Except Str SourceUnit)

/-- The inner loop of `validate` over one root's WalkDir items: a traversal
error is printed and skipped (`continue`); non-files and non-.sol files are
skipped; a read failure is propagated by `?`, aborting the walk; a parse
failure hits `.expect("Parsing failed")` (a panic, modelled as a fatal
error); otherwise the per-file checks append to the shared report. -/
def processPath (root : Str) : List WalkItem → Report → Except Str Report
  | [], results => .ok results
  | .access _ :: rest, results => processPath root rest results
  | .entry path isFile ext rd pt :: rest, results =>
    if ¬(isFile = true ∧ ext = some solExtL) then processPath root rest results
    else
      match rd with
      | .error e => .error e
      | .ok content =>
        match pt with
        | .error _ => .error ("Parsing failed".data)
        | .ok ptv =>
          match fileChecks path content (is_script_path root path) ptv with
          | none => .error ("panicked".data)
          | some items => processPath root rest (results ++ items)

-- ===== Top-level driver (fn run / validate_conventions, mod.rs) =====

def exceptIsOk {ε α : Type} (e : Except ε α) : Bool :=
  match e with
  | .ok _ => true
  | .error _ => false

/-- The function `validate_conventions` of mod.rs: propagates a walk error
via `?`, then fails with "Invalid names found" when the report is not
clean. -/
def validate_conventions (vres : Except Str Report) : Except Str Unit :=
  match vres with
  | .error e => .error e
  | .ok results =>
    if !(results.is_valid) then .error ("Invalid names found".data) else .ok ()

/-- The function `run` of mod.rs, abstracted over the walk outcome and the
formatting pass outcome: both sub-results are computed, then combined with
`is_ok() && is_ok()`. -/
def run (vres : Except Str Report) (valid_fmt : Except Str Unit) : Except Str Unit :=
  let valid_names := validate_conventions vres
  if exceptIsOk valid_names && exceptIsOk valid_fmt then
    .ok ()
  else
    .error ("One or more checks failed, review above output".data)

-- ===== Claim C4: the script-shape rule =====

theorem mem_infix_rustDebugStrs : ∀ (xs : List Str) (m : Str), m ∈ xs → m <:+: rustDebugStrs xs := by
  intro xs
  induction xs with
  | nil => intro m hm; exact absurd hm (List.not_mem_nil m)
  | cons x rest ih =>
    intro m hm
    cases rest with
    | nil =>
      rcases List.mem_cons.mp hm with rfl | hm2
      · exact ⟨['"'], ['"'], by simp [rustDebugStrs]⟩
      · exact absurd hm2 (List.not_mem_nil m)
    | cons y rest2 =>
      rcases List.mem_cons.mp hm with rfl | hm2
      · refine ⟨['"'], ['"', ',', ' '] ++ rustDebugStrs (y :: rest2), ?_⟩
        simp [rustDebugStrs]
      · obtain ⟨s, t, heq⟩ := ih m hm2
        refine ⟨('"' :: (x ++ ['"', ',', ' '])) ++ s, t, ?_⟩
        simp only [rustDebugStrs, List.append_assoc, List.cons_append]
        rw [← heq]
        simp [List.append_assoc]

theorem mem_infix_scriptsFoundMsg (pms : List Str) (m : Str) (hm : m ∈ pms) :
    m <:+: scriptsFoundMsg pms := by
  obtain ⟨s, t, heq⟩ := mem_infix_rustDebugStrs pms m hm
  refine ⟨scriptsFoundMsgHead ++ '[' :: s, t ++ [']'], ?_⟩
  simp only [scriptsFoundMsg, rustDebugList, List.append_assoc, List.cons_append]
  rw [← heq]
  simp [List.append_assoc]

/-- Claim C4: on an executable script, the script-shape rule yields exactly
one line-0 Script violation with message "No `run` method found" when no
entrypoint was collected, exactly one line-0 violation when exactly one
entrypoint differs from "run", exactly one line-0 violation listing all the
names when more than one entrypoint was collected, and nothing exactly when
the collected list is the single name "run". -/
theorem claim_C4 : ∀ (file : Str) (pms : List Str),
    (pms = [] → scriptShapeCheck file pms = [⟨.Script, file, noRunMsg, 0⟩]) ∧
      (∀ m, pms = [m] → m ≠ runL →
        scriptShapeCheck file pms = [⟨.Script, file, onlyRunMsg, 0⟩]) ∧
      (2 ≤ pms.length →
        scriptShapeCheck file pms = [⟨.Script, file, scriptsFoundMsg pms, 0⟩] ∧
          ∀ m ∈ pms, m <:+: scriptsFoundMsg pms) ∧
      (scriptShapeCheck file pms = [] ↔ pms = [runL]) := by
  intro file pms
  refine ⟨?_, ?_, ?_, ?_⟩
  · rintro rfl; rfl
  · rintro m rfl hne
    simp [scriptShapeCheck, hne]
  · intro hlen
    match pms, hlen with
    | m1 :: m2 :: rest, _ =>
      exact ⟨rfl, fun m hm => mem_infix_scriptsFoundMsg _ m hm⟩
  · cases pms with
    | nil => simp [scriptShapeCheck]
    | cons m1 r =>
      cases r with
      | nil =>
        by_cases h : m1 = runL
        · simp [scriptShapeCheck, h]
        · simp [scriptShapeCheck, h]
      | cons m2 r2 => simp [scriptShapeCheck]

/-- Witness for claim C4 at the entrypoint lists `[]`, `["foo"]`,
`["foo", "bar"]` and `["run"]`. -/
theorem claim_C4_witness :
    scriptShapeCheck ("f".data) [] = [⟨.Script, "f".data, noRunMsg, 0⟩] ∧
      scriptShapeCheck ("f".data) ["foo".data] = [⟨.Script, "f".data, onlyRunMsg, 0⟩] ∧
      (scriptShapeCheck ("f".data) ["foo".data, "bar".data] =
          [⟨.Script, "f".data, scriptsFoundMsg ["foo".data, "bar".data], 0⟩] ∧
        ∀ m ∈ ["foo".data, "bar".data], m <:+: scriptsFoundMsg ["foo".data, "bar".data]) ∧
      scriptShapeCheck ("f".data) [runL] = [] :=
  ⟨(claim_C4 ("f".data) []).1 rfl,
   (claim_C4 ("f".data) ["foo".data]).2.1 ("foo".data) rfl (by decide),
   (claim_C4 ("f".data) ["foo".data, "bar".data]).2.2.1 (by decide),
   (claim_C4 ("f".data) [runL]).2.2.2.mpr rfl⟩

-- ===== Claim C5: entrypoint collection =====

/-- The entrypoint test of claim C5 for one function-like declaration: not
private/internal and not named "setUp" or "constructor". -/
def fnEntrypoint (f : FunctionDefinition) : List Str :=
  match fname f with
  | some n =>
    if is_private_fn f = false ∧ n ≠ setUpL ∧ n ≠ constructorL then [n] else []
  | none => []

def memberEntrypoint (p : ContractPart) : List Str :=
  match p with
  | .FunctionDefinition f => fnEntrypoint f
  | _ => []

/-- The entrypoints the code actually collects (amended claim): immediate
contract members only. -/
def amendedEntrypoints (pt : SourceUnit) : List Str :=
  (pt.map fun part =>
    match part with
    | .ContractDefinition parts => (parts.map memberEntrypoint).flatten
    | _ => []).flatten

/-- The entrypoints exactly as claim C5 states them: top-level function
declarations and immediate contract members. -/
def claimEntrypoints (pt : SourceUnit) : List Str :=
  (pt.map fun part =>
    match part with
    | .FunctionDefinition f => fnEntrypoint f
    | .ContractDefinition parts => (parts.map memberEntrypoint).flatten
    | _ => []).flatten

theorem walkContract_pms (content file : Str) :
    ∀ (parts : List ContractPart) (i : List InvalidItem) (p : List Str),
      walkContract content file true parts = some (i, p) →
        p = (parts.map memberEntrypoint).flatten := by
  intro parts
  induction parts with
  | nil =>
    intro i p h
    simp only [walkContract, Option.some.injEq, Prod.mk.injEq] at h
    simp [← h.2]
  | cons part rest ih =>
    intro i p h
    cases part with
    | VariableDefinition v =>
      rw [walkContract] at h
      cases hv : v.validate content file with
      | none => rw [hv] at h; exact absurd h (by simp)
      | some items =>
        rw [hv] at h
        cases hw : walkContract content file true rest with
        | none => rw [hw] at h; exact absurd h (by simp)
        | some pr =>
          obtain ⟨i2, p2⟩ := pr
          rw [hw] at h
          simp only [Option.some.injEq, Prod.mk.injEq] at h
          simp only [List.map_cons, memberEntrypoint, List.flatten_cons, List.nil_append]
          exact h.2 ▸ ih i2 p2 hw
    | FunctionDefinition f =>
      rw [walkContract] at h
      cases hn : fname f with
      | none => rw [hn] at h; exact absurd h (by simp)
      | some n =>
        rw [hn] at h
        cases hw : walkContract content file true rest with
        | none => rw [hw] at h; exact absurd h (by simp)
        | some pr =>
          obtain ⟨i2, p2⟩ := pr
          rw [hw] at h
          dsimp only at h
          by_cases hc : is_private_fn f = false ∧ n ≠ setUpL ∧ n ≠ constructorL
          · have hb : (true && !(is_private_fn f) && (n != setUpL) && (n != constructorL)) = true := by
              simp [hc.1, bne_iff_ne, hc.2.1, hc.2.2]
            rw [if_pos hb] at h
            simp only [Option.some.injEq, Prod.mk.injEq] at h
            simp only [List.map_cons, memberEntrypoint, List.flatten_cons, fnEntrypoint, hn,
              if_pos hc]
            rw [← h.2]
            simp [ih i2 p2 hw]
          · have hb : ¬((true && !(is_private_fn f) && (n != setUpL) && (n != constructorL)) = true) := by
              simp only [Bool.and_eq_true, Bool.not_eq_true', bne_iff_ne, Bool.true_and]
              intro hx
              exact hc ⟨hx.1.1, hx.1.2, hx.2⟩
            rw [if_neg hb] at h
            simp only [Option.some.injEq, Prod.mk.injEq] at h
            simp only [List.map_cons, memberEntrypoint, List.flatten_cons, fnEntrypoint, hn,
              if_neg hc]
            rw [← h.2]
            simp [ih i2 p2 hw]
    | Other =>
      rw [walkContract] at h
      simp only [List.map_cons, memberEntrypoint, List.flatten_cons, List.nil_append]
      exact ih i p h

/-- Claim C5 (amended): in an executable script, the collected public
entrypoints are exactly the immediate contract-member function definitions
that carry no Private/Internal visibility attribute and are not named
"setUp" or "constructor"; top-level function declarations are never
collected (they fall into the walk's `_ => ()` arm). -/
theorem claim_C5 : ∀ (content file : Str) (pt : SourceUnit) (items : List InvalidItem)
    (pms : List Str),
    walkParts content file true pt = some (items, pms) → pms = amendedEntrypoints pt := by
  intro content file pt
  induction pt with
  | nil =>
    intro items pms h
    simp only [walkParts, Option.some.injEq, Prod.mk.injEq] at h
    simp [amendedEntrypoints, ← h.2]
  | cons part rest ih =>
    intro items pms h
    cases part with
    | VariableDefinition v =>
      rw [walkParts] at h
      cases hv : v.validate content file with
      | none => rw [hv] at h; exact absurd h (by simp)
      | some vitems =>
        rw [hv] at h
        cases hw : walkParts content file true rest with
        | none => rw [hw] at h; exact absurd h (by simp)
        | some pr =>
          obtain ⟨i2, p2⟩ := pr
          rw [hw] at h
          simp only [Option.some.injEq, Prod.mk.injEq] at h
          simp only [amendedEntrypoints, List.map_cons, List.flatten_cons, List.nil_append]
          exact h.2 ▸ ih i2 p2 hw
    | ContractDefinition parts =>
      rw [walkParts] at h
      cases hc : walkContract content file true parts with
      | none => rw [hc] at h; exact absurd h (by simp)
      | some pr1 =>
        obtain ⟨i1, p1⟩ := pr1
        rw [hc] at h
        cases hw : walkParts content file true rest with
        | none => rw [hw] at h; exact absurd h (by simp)
        | some pr2 =>
          obtain ⟨i2, p2⟩ := pr2
          rw [hw] at h
          simp only [Option.some.injEq, Prod.mk.injEq] at h
          simp only [amendedEntrypoints, List.map_cons, List.flatten_cons]
          rw [← h.2, walkContract_pms content file parts i1 p1 hc, ih i2 p2 hw]
          rfl
    | FunctionDefinition f =>
      rw [walkParts] at h
      simp only [amendedEntrypoints, List.map_cons, List.flatten_cons, List.nil_append]
      exact ih items pms h
    | Other =>
      rw [walkParts] at h
      simp only [amendedEntrypoints, List.map_cons, List.flatten_cons, List.nil_append]
      exact ih items pms h

/-- Witness for claim C5 on a script file containing one contract whose only
member is a public function "run". -/
theorem claim_C5_witness :
    walkParts ("x".data) ("./script/A.s.sol".data) true
        [.ContractDefinition [.FunctionDefinition ⟨.Function, some ("run".data), [], 0⟩]] =
      some ([], ["run".data]) ∧
      ["run".data] = amendedEntrypoints
        [.ContractDefinition [.FunctionDefinition ⟨.Function, some ("run".data), [], 0⟩]] :=
  ⟨by decide,
   claim_C5 ("x".data) ("./script/A.s.sol".data) _ [] ["run".data] (by decide)⟩

/-- Counterexample to claim C5 as stated: a script file whose only
declaration is a top-level public function "foo" — the claim says "foo" is
collected as an entrypoint, but the walk's entrypoint collection only sees
contract members, so nothing is collected. -/
theorem claim_C5_counterexample :
    walkParts ("x".data) ("./script/A.s.sol".data) true
        [.FunctionDefinition ⟨.Function, some ("foo".data), [], 0⟩] = some ([], []) ∧
      claimEntrypoints [.FunctionDefinition ⟨.Function, some ("foo".data), [], 0⟩] =
        ["foo".data] := by
  constructor
  · rfl
  · rfl

-- ===== Claim C6: script classification =====

/-- Claim C6: a file is classified as an executable script iff it was
discovered under the "./script" root and its path ends with ".s.sol"; under
the "./src" and "./test" roots nothing is ever classified as an executable
script. -/
theorem claim_C6 : ∀ p : Str,
    is_script_path srcRootL p = false ∧ is_script_path testRootL p = false ∧
      (is_script_path scriptRootL p = true ↔ ∃ pre, p = pre ++ sSolL) := by
  intro p
  refine ⟨?_, ?_, ?_⟩
  · rw [is_script_path, show (srcRootL == scriptRootL) = false from by decide, Bool.false_and]
  · rw [is_script_path, show (testRootL == scriptRootL) = false from by decide, Bool.false_and]
  · rw [is_script_path, show (scriptRootL == scriptRootL) = true from by decide, Bool.true_and,
      endsW, List.isSuffixOf_iff_suffix]
    constructor
    · rintro ⟨pre, rfl⟩; exact ⟨pre, rfl⟩
    · rintro ⟨pre, rfl⟩; exact ⟨pre, rfl⟩

-- ===== Claim C7: the constant/immutable variable rule =====

/-- Claim C7: validating a state-variable declaration yields a single
Constant violation carrying the declaration's name and the line resolved
from its start offset iff the declaration has a Constant or Immutable
attribute and its name fails the constant-name predicate; a declaration
without either attribute never yields a violation, whatever its name. -/
theorem claim_C7 : ∀ (v : VariableDefinition) (content file : Str) (ln : Nat),
    (vdIsConstant v = false → v.validate content file = some []) ∧
      (offset_to_line content v.loc_start = some ln →
        ((∃ it : InvalidItem, v.validate content file = some [it] ∧
            it.validator = .Constant ∧ it.file = file ∧ it.text = v.name ∧ it.line = ln) ↔
          vdIsConstant v = true ∧ is_valid_constant_name v.name = false)) := by
  intro v content file ln
  constructor
  · intro hnc
    rw [VariableDefinition.validate, hnc, Bool.false_and, if_neg (by simp)]
  · intro hln
    by_cases hc : (vdIsConstant v && !(is_valid_constant_name v.name)) = true
    · rw [VariableDefinition.validate, if_pos hc, hln]
      simp only [Bool.and_eq_true, Bool.not_eq_true'] at hc
      constructor
      · intro _; exact hc
      · intro _
        exact ⟨⟨.Constant, file, v.name, ln⟩, rfl, rfl, rfl, rfl, rfl⟩
    · rw [VariableDefinition.validate, if_neg hc]
      simp only [Bool.and_eq_true, Bool.not_eq_true'] at hc
      constructor
      · rintro ⟨it, hit, _⟩
        exact absurd (by injection hit) (by simp)
      · intro hx; exact absurd hx hc

/-- Witness for claim C7: a constant variable named "bad" at offset 0 of
content "abc" (line 1) yields exactly the Constant violation; the same
variable without the attribute yields nothing. -/
theorem claim_C7_witness :
    (∃ it : InvalidItem,
        VariableDefinition.validate ⟨"bad".data, [.Constant], 0⟩ ("abc".data) ("f".data) =
            some [it] ∧
          it.validator = .Constant ∧ it.file = "f".data ∧ it.text = "bad".data ∧ it.line = 1) ∧
      VariableDefinition.validate ⟨"bad".data, [], 0⟩ ("abc".data) ("f".data) = some [] :=
  ⟨((claim_C7 ⟨"bad".data, [.Constant], 0⟩ ("abc".data) ("f".data) 1).2 (by decide)).mpr
      (by decide),
   (claim_C7 ⟨"bad".data, [], 0⟩ ("abc".data) ("f".data) 1).1 (by decide)⟩

-- ===== Claim C8: the top-level verdict =====

/-- Claim C8: `run` succeeds iff the convention walk produced a clean
report and the formatting pass succeeded; when either fails it returns the
combined failure error. -/
theorem claim_C8 : ∀ (rep : Report) (fmt : Except Str Unit),
    (exceptIsOk (run (.ok rep) fmt) = true ↔ rep.is_valid = true ∧ exceptIsOk fmt = true) ∧
      (¬(rep.is_valid = true ∧ exceptIsOk fmt = true) →
        run (.ok rep) fmt = .error ("One or more checks failed, review above output".data)) := by
  intro rep fmt
  by_cases hrep : rep.is_valid = true
  · cases fmt with
    | ok u => simp [run, validate_conventions, exceptIsOk, hrep]
    | error e => simp [run, validate_conventions, exceptIsOk, hrep]
  · rw [Bool.not_eq_true] at hrep
    cases fmt with
    | ok u => simp [run, validate_conventions, exceptIsOk, hrep]
    | error e => simp [run, validate_conventions, exceptIsOk, hrep]

/-- Witness for claim C8: a report with one violation and a passing
formatting check yield the combined failure error. -/
theorem claim_C8_witness :
    run (.ok [⟨.Constant, "f".data, "x".data, 1⟩]) (.ok ()) =
      .error ("One or more checks failed, review above output".data) :=
  (claim_C8 [⟨.Constant, "f".data, "x".data, 1⟩] (.ok ())).2 (by decide)

-- ===== Claim C9: canonical names of function-like declarations =====

/-- Claim C9 (amended): name resolution succeeds exactly when the
declaration is a constructor, fallback or receive (which get their fixed
synthetic names) or carries a declared identifier (used verbatim for
functions and modifiers); for a nameless function or modifier node —
which the parser's grammar admits, e.g. the pre-0.6 anonymous fallback
`function() external {}` — the `unwrap` panics (`none`). -/
theorem claim_C9 : ∀ f : FunctionDefinition,
    ((fname f).isSome = true ↔
        f.ty = .Constructor ∨ f.ty = .Fallback ∨ f.ty = .Receive ∨ f.name.isSome = true) ∧
      (f.ty = .Constructor → fname f = some constructorL) ∧
      (f.ty = .Fallback → fname f = some fallbackL) ∧
      (f.ty = .Receive → fname f = some receiveL) ∧
      (f.ty = .Function ∨ f.ty = .Modifier → fname f = f.name) := by
  intro f
  obtain ⟨ty, name, attrs, loc⟩ := f
  cases ty <;> simp [fname]

/-- Witness for claim C9 at a constructor declaration. -/
theorem claim_C9_witness :
    fname ⟨.Constructor, none, [], 0⟩ = some constructorL :=
  (claim_C9 ⟨.Constructor, none, [], 0⟩).2.1 rfl

/-- Counterexample to claim C9 as stated: computing the canonical name of a
nameless function declaration (`ty = Function`, no identifier — a shape the
parser produces for `function() ... {}`) hits `self.name.as_ref().unwrap()`
on `None` and panics instead of succeeding. -/
theorem claim_C9_counterexample : fname ⟨.Function, none, [], 0⟩ = none := rfl

-- ===== Claim C10: error handling during the walk =====

/-- Claim C10 (amended): a directory-traversal error is reported and
skipped and the walk continues with the remaining entries unchanged, but a
file that cannot be read aborts the whole walk: its read error is
propagated by `?` as the overall result. -/
theorem claim_C10 : ∀ (root e path msg : Str) (ptv : Except Str SourceUnit)
    (rest : List WalkItem) (results : Report),
    processPath root (.access e :: rest) results = processPath root rest results ∧
      processPath root (.entry path true (some solExtL) (.error msg) ptv :: rest) results =
        .error msg := by
  intro root e path msg ptv rest results
  constructor
  · rfl
  · rw [processPath, if_neg (by simp)]

/-- A readable source file whose contract-free parse tree holds one
constant-flagged variable with an invalid name (yields one violation). -/
def goodEntry : WalkItem :=
  .entry ("./src/A.sol".data) true (some solExtL) (.ok ("abc".data))
    (.ok [.VariableDefinition ⟨"bad".data, [.Constant], 0⟩])

/-- A source file whose read fails. -/
def badReadEntry : WalkItem :=
  .entry ("./src/B.sol".data) true (some solExtL) (.error ("boom".data)) (.ok [])

/-- Counterexample to claim C10 as stated: with an unreadable file first in
the walk, the run aborts with that file's read error and the later file's
violation is never collected, instead of the entry being skipped and the
walk continuing (which would have produced the second conjunct's report). -/
theorem claim_C10_counterexample :
    processPath srcRootL [badReadEntry, goodEntry] [] = .error ("boom".data) ∧
      processPath srcRootL [goodEntry] [] =
        .ok [⟨.Constant, "./src/A.sol".data, "bad".data, 1⟩] := by
  constructor
  · rfl
  · rfl
